import Mathlib

/-!
# Shallow embedding of yarl's percent-encoding codecs

This file embeds the quoter/unquoter of `yarl` (files `src/yarl/_quoting.pyx`
and the writer-based `_Quoter`/`_Unquoter` shipped next to `src/yarl/__init__.pyi`)
into Lean and proves properties of the embedded functions.

Strings are modelled as lists of Unicode code points (`List Nat`).  The
correspondence with the source is:

* `toHex`, `fromHex`          — `_to_hex`, `_from_hex`
* `charAsUtf8`                — `_char_as_utf8` (and `_write_utf8`)
* `allowedTable`, `allowedNotQsTable` — `ALLOWED_TABLE`, `ALLOWED_NOTQS_TABLE`
* `effSafe`                   — the per-call `safe_table` after extension with
                                `safe` and `protected`
* `doQuoteLoop`, `doQuote`    — the function-based `_do_quote` (with the
                                `ret`/`ret_idx` buffer machinery modelled
                                explicitly by `QState`)
* `pyQuote`                   — the `_quote` entry point (type dispatch)
* `quoterLoop`, `quoterDoQuote` — the writer-based `_Quoter._do_quote`
* `unquoteC`, `unquoteLoop`, `doUnquote` — `_do_unquote`
-/

namespace Yarl

/-- Source `_to_hex`: the uppercase hex digit of a nibble. -/
def toHex (v : Nat) : Nat :=
  if v < 10 then v + 0x30 else v + 0x41 - 10

/-- Source `_from_hex`: value of an ASCII hex digit, `none` for the -1 case. -/
def fromHex (c : Nat) : Option Nat :=
  if 0x30 ≤ c ∧ c ≤ 0x39 then some (c - 0x30)
  else if 0x41 ≤ c ∧ c ≤ 0x46 then some (c - 0x41 + 10)
  else if 0x61 ≤ c ∧ c ≤ 0x66 then some (c - 0x61 + 10)
  else none

/-- Source `_char_as_utf8`: the UTF-8 bytes of a code point; surrogates and
code points above U+10FFFF yield no bytes.  The masked shifts of the source
(`ch >> 6`, `ch & 0x3f`, …) are written as division/remainder, which agree on
the guarded ranges. -/
def charAsUtf8 (ch : Nat) : List Nat :=
  if ch < 0x80 then [ch]
  else if ch < 0x800 then [0xc0 + ch / 64, 0x80 + ch % 64]
  else if 0xD800 ≤ ch ∧ ch ≤ 0xDFFF then []
  else if ch < 0x10000 then [0xe0 + ch / 4096, 0x80 + ch / 64 % 64, 0x80 + ch % 64]
  else if 0x10FFFF < ch then []
  else [0xf0 + ch / 262144, 0x80 + ch / 4096 % 64, 0x80 + ch / 64 % 64, 0x80 + ch % 64]

/-- ASCII letter test (`string.ascii_letters`). -/
def isAsciiLetter (c : Nat) : Bool :=
  (0x41 ≤ c && c ≤ 0x5A) || (0x61 ≤ c && c ≤ 0x7A)

/-- ASCII digit test (`string.digits`). -/
def isAsciiDigit (c : Nat) : Bool :=
  0x30 ≤ c && c ≤ 0x39

/-- The extra unreserved characters `-._~`. -/
def unreservedExtra : List Nat := [45, 46, 95, 126]

/-- Source `SUB_DELIMS_WITHOUT_QS = "!$'()*,"`. -/
def subDelimsWithoutQs : List Nat := [33, 36, 39, 40, 41, 42, 44]

/-- Source `QS = '+&=;'`. -/
def qsChars : List Nat := [43, 38, 61, 59]

/-- Source `ALLOWED_TABLE`: membership in `ALLOWED = UNRESERVED + SUB_DELIMS_WITHOUT_QS`. -/
def allowedTable (c : Nat) : Bool :=
  isAsciiLetter c || isAsciiDigit c || unreservedExtra.contains c || subDelimsWithoutQs.contains c

/-- Source `ALLOWED_NOTQS_TABLE`: `ALLOWED_TABLE` plus the `QS` characters. -/
def allowedNotQsTable (c : Nat) : Bool :=
  allowedTable c || qsChars.contains c

/-- The per-call `safe_table` of `_do_quote`: the base table selected by `qs`,
extended with the caller's `safe` and `protected` characters. -/
def effSafe (qs : Bool) (safe prot : List Nat) (c : Nat) : Bool :=
  (if qs then allowedTable c else allowedNotQsTable c) || safe.contains c || prot.contains c

/-- A byte emitted as a `%HH` escape (`'%'`, `_to_hex(b >> 4)`, `_to_hex(b & 0x0f)`). -/
def pctChunk (b : Nat) : List Nat := [37, toHex (b / 16), toHex (b % 16)]

/-- The `%HH` escapes of the UTF-8 bytes of a code point, as written by the
byte loop at the end of `_do_quote`. -/
def utf8PctChunk (ch : Nat) : List Nat :=
  (charAsUtf8 ch).flatMap pctChunk

/-- Writing one character at position `pos` of the output buffer
(`PyUnicode_WriteChar(ret, ret_idx, ch)`): positions inside the buffer are
overwritten, the position just past the end appends. -/
def bufWrite (buf : List Nat) (pos c : Nat) : List Nat :=
  if pos < buf.length then buf.set pos c
  else buf ++ List.replicate (pos - buf.length) 0 ++ [c]

/-- The output state of the function-based `_do_quote`: `ret` is `none` while
the function has not yet allocated an output string, `retIdx` is `ret_idx`. -/
structure QState where
  ret : Option (List Nat)
  retIdx : Nat
deriving DecidableEq, Repr

/-- Source `_make_str(val, val_len, idx)` guarded by `if ret is None`: allocate
the output buffer, copying the first `idx` characters of the input. -/
def qForce (val : List Nat) (idx : Nat) (s : QState) : QState :=
  match s.ret with
  | some _ => s
  | none => { ret := some (val.take idx), retIdx := s.retIdx }

/-- Source `PyUnicode_WriteChar(ret, ret_idx, c); ret_idx += 1`, together with
the safe-character shortcut that only advances `ret_idx` while `ret is None`. -/
def qWrite (s : QState) (c : Nat) : QState :=
  match s.ret with
  | some buf => { ret := some (bufWrite buf s.retIdx c), retIdx := s.retIdx + 1 }
  | none => { ret := none, retIdx := s.retIdx + 1 }

/-- Sequential writes. -/
def qWriteList (s : QState) (cs : List Nat) : QState :=
  cs.foldl qWrite s

/-- Emitting the literal-percent escape `%25` (allocating the buffer first). -/
def qPct25 (val : List Nat) (idx : Nat) (s : QState) : QState :=
  qWriteList (qForce val idx s) [37, 50, 53]

/-- The `has_pct == 3` branch of `_do_quote` for a valid `%HH` triplet with
value `b` and original digits `c1 c2`; `idx` is the input position just past
the triplet. -/
def tripletEmit (val safe prot : List Nat) (qs : Bool) (b c1 c2 idx : Nat) (s : QState) : QState :=
  if prot.contains b then
    qWriteList (qForce val idx s) (pctChunk b)
  else if b < 128 ∧ effSafe qs safe prot b = true then
    qWrite (qForce val idx s) b
  else
    match s.ret with
    | none =>
      if c1 = toHex (b / 16) ∧ c2 = toHex (b % 16) then s
      else qWriteList (qForce val idx s) (pctChunk b)
    | some _ => qWriteList s (pctChunk b)

/-- Handling of one character read in the normal state of `_do_quote`
(`qs`-space, safe table, UTF-8 emission); `idx` is the position just past the
character. -/
def normStep (val safe prot : List Nat) (qs : Bool) (c idx : Nat) (s : QState) : QState :=
  if qs = true ∧ c = 32 then qWrite (qForce val idx s) 43
  else if c < 128 ∧ effSafe qs safe prot c = true then qWrite s c
  else qWriteList (qForce val idx s) (utf8PctChunk c)

/-- The main loop of the function-based `_do_quote`.  The loop of the source
backtracks (`idx -= 1` / `idx -= 2`) after a `%` that is not followed by two
hex digits; here the same processing order is obtained by looking ahead at the
two characters after a `%`.  The input position `idx` used by `_make_str` is
recovered as `val.length` minus the length of the unread suffix.  Every step
consumes at least one input character, so running the loop with `fuel` equal
to the length of the remaining input reproduces the source loop exactly. -/
def doQuoteLoop (val safe prot : List Nat) (qs : Bool) : Nat → List Nat → QState → QState
  | _, [], s => s
  | 0, _ :: _, s => s
  | fuel + 1, c :: rest, s =>
    if c = 37 then
      match rest with
      | [] =>
        -- "%" as last character: emit %25, loop ends
        qPct25 val val.length s
      | [c1] =>
        -- one character after a final "%": emit %25, reprocess that character
        let s1 := qPct25 val val.length s
        if c1 = 37 then qPct25 val val.length s1
        else normStep val safe prot qs c1 val.length s1
      | c1 :: c2 :: rest2 =>
        match fromHex c1, fromHex c2 with
        | some d1, some d2 =>
          doQuoteLoop val safe prot qs fuel rest2
            (tripletEmit val safe prot qs (16 * d1 + d2) c1 c2 (val.length - rest2.length) s)
        | _, _ =>
          -- invalid digits: emit %25 for the '%', reprocess both characters
          doQuoteLoop val safe prot qs fuel (c1 :: c2 :: rest2) (qPct25 val (val.length - rest2.length) s)
    else
      doQuoteLoop val safe prot qs fuel rest (normStep val safe prot qs c (val.length - rest.length) s)

/-- The result of the function-based `_do_quote` after its validation
succeeded: the input itself when `ret` was never allocated, otherwise
`PyUnicode_Substring(ret, 0, ret_idx)`. -/
def doQuoteRun (val safe prot : List Nat) (qs : Bool) : List Nat :=
  let s := doQuoteLoop val safe prot qs val.length val { ret := none, retIdx := 0 }
  match s.ret with
  | none => val
  | some buf => buf.take s.retIdx

/-- Error kinds raised by the quoting entry points: `TypeError` and
`ValueError`. -/
inductive PyErr where
  | typeError
  | valueError
deriving DecidableEq, Repr

deriving instance DecidableEq for Except

/-- Source `_do_quote` including its argument validation.  The empty-input
shortcut `if val_len == 0: return val` precedes the `ord(ch) > 127` checks of
`safe` and `protected`. -/
def doQuote (val safe prot : List Nat) (qs : Bool) : Except PyErr (List Nat) :=
  if val.length = 0 then .ok val
  else if safe.any (fun c => 127 < c) then .error .valueError
  else if prot.any (fun c => 127 < c) then .error .valueError
  else .ok (doQuoteRun val safe prot qs)

/-- A Python argument as seen by `_quote`: `None`, an exact `str`, a `str`
subclass, or anything else. -/
inductive PyVal where
  | none
  | str (s : List Nat)
  | strSub (s : List Nat)
  | other
deriving DecidableEq, Repr

/-- Source `_quote`: `None` passes through, `str` (and subclasses, after
conversion) are quoted, anything else raises `TypeError`. -/
def pyQuote (v : PyVal) (safe prot : List Nat) (qs : Bool) : Except PyErr (Option (List Nat)) :=
  match v with
  | .none => .ok Option.none
  | .str s => (doQuote s safe prot qs).map Option.some
  | .strSub s => (doQuote s safe prot qs).map Option.some
  | .other => .error .typeError

/-! ## The writer-based `_Quoter` (class-based implementation) -/

/-- The `Writer` of the class-based `_Quoter`: an append-only character buffer
plus the `changed` flag.  `pos` is the buffer length. -/
structure Writer where
  buf : List Nat
  changed : Bool
deriving DecidableEq, Repr

/-- Source `_write_char`. -/
def wChar (w : Writer) (c : Nat) (ch : Bool) : Writer :=
  { buf := w.buf ++ [c], changed := w.changed || ch }

/-- Source `_write_pct`. -/
def wPct (w : Writer) (b : Nat) (ch : Bool) : Writer :=
  wChar (wChar (wChar w 37 ch) (toHex (b / 16)) ch) (toHex (b % 16)) ch

/-- Source `_write_percent`: the literal `%25`, always marking `changed`. -/
def wPercent (w : Writer) : Writer :=
  wChar (wChar (wChar w 37 true) 50 true) 53 true

/-- Source `_write_pct_check`: re-emit the canonical `%HH`, marking `changed`
only when the original digits `c1 c2` differ from the canonical ones. -/
def wPctCheck (w : Writer) (b c1 c2 : Nat) : Writer :=
  let ch : Bool := (c1 != toHex (b / 16)) || (c2 != toHex (b % 16))
  wChar (wChar (wChar w 37 ch) (toHex (b / 16)) ch) (toHex (b % 16)) ch

/-- Source `_write_utf8`: the `%HH` escapes of the UTF-8 bytes, each marking
`changed`; surrogates and over-range code points write nothing. -/
def wUtf8 (w : Writer) (ch : Nat) : Writer :=
  (charAsUtf8 ch).foldl (fun w b => wPct w b true) w

/-- Source `_Quoter._write`: one normal-state character. -/
def wNormStep (safe prot : List Nat) (qs : Bool) (c : Nat) (w : Writer) : Writer :=
  if qs = true ∧ c = 32 then wChar w 43 true
  else if c < 128 ∧ effSafe qs safe prot c = true then wChar w c false
  else wUtf8 w c

/-- The loop of the class-based `_Quoter._do_quote`, with the same lookahead
reading of `%HH` triplets as `doQuoteLoop` (the class `__init__` also adds the
`protected` characters to the safe table, so `effSafe` is its safe table). -/
def quoterLoop (safe prot : List Nat) (qs : Bool) : Nat → List Nat → Writer → Writer
  | _, [], w => w
  | 0, _ :: _, w => w
  | fuel + 1, c :: rest, w =>
    if c = 37 then
      match rest with
      | [] => wPercent w
      | [c1] =>
        if c1 = 37 then wPercent (wPercent w)
        else wNormStep safe prot qs c1 (wPercent w)
      | c1 :: c2 :: rest2 =>
        match fromHex c1, fromHex c2 with
        | some d1, some d2 =>
          quoterLoop safe prot qs fuel rest2
            (if 16 * d1 + d2 < 128 ∧ prot.contains (16 * d1 + d2) = true then
               wPct w (16 * d1 + d2) true
             else if 16 * d1 + d2 < 128 ∧ effSafe qs safe prot (16 * d1 + d2) = true then
               wChar w (16 * d1 + d2) true
             else wPctCheck w (16 * d1 + d2) c1 c2)
        | _, _ =>
          quoterLoop safe prot qs fuel (c1 :: c2 :: rest2) (wPercent w)
    else
      quoterLoop safe prot qs fuel rest (wNormStep safe prot qs c w)

/-- The class-based `_Quoter._do_quote`: return the input when nothing
changed, otherwise the buffer contents (ASCII-decoded). -/
def quoterDoQuote (safe prot : List Nat) (qs : Bool) (val : List Nat) : List Nat :=
  if val.length = 0 then val
  else
    let w := quoterLoop safe prot qs val.length val { buf := [], changed := false }
    if w.changed then w.buf else val

/-! ## The unquoter `_do_unquote` -/

/-- Does `small` occur as a contiguous segment of `big`?  This is Python's
substring test `small in big` (an empty `small` always matches). -/
def leadMatch : List Nat → List Nat → Bool
  | [], _ => true
  | _ :: _, [] => false
  | a :: s, b :: t => a == b && leadMatch s t

/-- See `leadMatch`: the substring relation itself. -/
def segIn (small : List Nat) : List Nat → Bool
  | [] => leadMatch small []
  | b :: t => leadMatch small (b :: t) || segIn small t

/-- Strict UTF-8 decoding of a byte sequence (`bytes.decode('utf8')`):
rejects truncated sequences, bad continuation bytes, overlong forms,
surrogates and code points above U+10FFFF. -/
def utf8Decode : List Nat → Option (List Nat)
  | [] => some []
  | b :: rest =>
    if b < 0x80 then (utf8Decode rest).map (b :: ·)
    else if b < 0xC2 then none
    else if b ≤ 0xDF then
      match rest with
      | b1 :: rest1 =>
        if 0x80 ≤ b1 ∧ b1 ≤ 0xBF then
          (utf8Decode rest1).map (((b - 0xC0) * 64 + (b1 - 0x80)) :: ·)
        else none
      | [] => none
    else if b ≤ 0xEF then
      match rest with
      | b1 :: b2 :: rest2 =>
        let lo1 := if b = 0xE0 then 0xA0 else 0x80
        let hi1 := if b = 0xED then 0x9F else 0xBF
        if (lo1 ≤ b1 ∧ b1 ≤ hi1) ∧ (0x80 ≤ b2 ∧ b2 ≤ 0xBF) then
          (utf8Decode rest2).map
            (((b - 0xE0) * 4096 + (b1 - 0x80) * 64 + (b2 - 0x80)) :: ·)
        else none
      | _ => none
    else if b ≤ 0xF4 then
      match rest with
      | b1 :: b2 :: b3 :: rest3 =>
        let lo1 := if b = 0xF0 then 0x90 else 0x80
        let hi1 := if b = 0xF4 then 0x8F else 0xBF
        if (lo1 ≤ b1 ∧ b1 ≤ hi1) ∧ (0x80 ≤ b2 ∧ b2 ≤ 0xBF) ∧ (0x80 ≤ b3 ∧ b3 ≤ 0xBF) then
          (utf8Decode rest3).map
            (((b - 0xF0) * 262144 + (b1 - 0x80) * 4096 + (b2 - 0x80) * 64 + (b3 - 0x80)) :: ·)
        else none
      | _ => none
    else none

/-- Uppercase hex digits of `n` without zero padding, as produced by
`hex(n).upper()[2:]`.  The first argument is recursion fuel; `n` itself is
always sufficient. -/
def upperHexCore : Nat → Nat → List Nat → List Nat
  | 0, _, acc => acc
  | fuel + 1, n, acc =>
    if n = 0 then acc else upperHexCore fuel (n / 16) (toHex (n % 16) :: acc)

/-- `hex(n).upper()[2:]` of Python. -/
def upperHexStr (n : Nat) : List Nat :=
  if n = 0 then [48] else upperHexCore n n []

/-- The `'+=&;'` string tested by the unquoter under `qs`. -/
def qsUnquoteSpecial : List Nat := [43, 61, 38, 59]

/-- The loop state of `_do_unquote`: the partial `pct` string, `last_pct`,
the byte buffer `pcts`, and the accumulated output chunks `ret`. -/
structure UState where
  pct : List Nat
  lastPct : List Nat
  pcts : List Nat
  ret : List (List Nat)
deriving DecidableEq, Repr

/-- The re-quoting applied to a successfully decoded run of `%HH` bytes:
`_do_quote(unquoted, '', '', True)` when `qs` and the run is a substring of
`'+=&;'`, `_do_quote(unquoted, '', '', False)` when it is a substring of
`unsafe`, otherwise the decoded run itself.  (Python's `in` on strings is the
substring test.) -/
def requoteChunk (unsaf : List Nat) (qs : Bool) (u : List Nat) : List Nat :=
  if qs = true ∧ segIn u qsUnquoteSpecial = true then doQuoteRun u [] [] true
  else if segIn u unsaf = true then doQuoteRun u [] [] false
  else u

/-- Processing of one input character by `_do_unquote`; `none` models the
uncaught `ValueError` of `int(pct[1:], base=16)` on non-hex digits.  (For the
two characters after a `%`, Python's `int` accepts a few exotic non-hex forms
such as an embedded sign; those inputs also leave the normal path and are not
visited by any theorem below.) -/
def unquoteC (unsaf : List Nat) (qs : Bool) (ch : Nat) (s : UState) : Option UState :=
  if s.pct ≠ [] then
    -- accumulate the percent triplet
    match s.pct with
    | [p0] => some { s with pct := [p0, ch] }
    | [_, p1] =>
      match fromHex p1, fromHex ch with
      | some d1, some d2 =>
        some { s with pct := [], lastPct := s.pct ++ [ch], pcts := s.pcts ++ [16 * d1 + d2] }
      | _, _ => none
    | _ => none
  else
    -- flush a finished run of %HH bytes if it decodes
    let s1 : UState :=
      if s.pcts ≠ [] then
        match utf8Decode s.pcts with
        | some u => { s with ret := s.ret ++ [requoteChunk unsaf qs u], pcts := [] }
        | none => s
      else s
    if ch = 37 then some { s1 with pct := [37] }
    else
      -- a failed run: append only last_pct (pcts is not cleared)
      let s2 : UState :=
        if s1.pcts ≠ [] then { s1 with ret := s1.ret ++ [s1.lastPct], lastPct := [] } else s1
      if ch = 43 then
        some { s2 with ret := s2.ret ++ [if qs = false ∨ unsaf.contains 43 then [43] else [32]] }
      else if unsaf.contains ch then
        some { s2 with ret := s2.ret ++ [[37]] ++ (upperHexStr ch).map (fun d => [d]) }
      else
        some { s2 with ret := s2.ret ++ [[ch]] }

/-- The character loop of `_do_unquote`. -/
def unquoteLoop (unsaf : List Nat) (qs : Bool) : List Nat → UState → Option UState
  | [], s => some s
  | c :: rest, s =>
    match unquoteC unsaf qs c s with
    | some s1 => unquoteLoop unsaf qs rest s1
    | none => none

/-- The final flush of `_do_unquote` after the loop: a pending byte run is
decoded (appending `last_pct` on failure); a pending partial `pct` is
discarded. -/
def unquoteFinish (unsaf : List Nat) (qs : Bool) (s : UState) : List (List Nat) :=
  if s.pcts ≠ [] then
    match utf8Decode s.pcts with
    | some u => s.ret ++ [requoteChunk unsaf qs u]
    | none => s.ret ++ [s.lastPct]
  else s.ret

/-- Source `_do_unquote`: `none` is the uncaught `ValueError`. -/
def doUnquote (unsaf : List Nat) (qs : Bool) (val : List Nat) : Option (List Nat) :=
  if val.length = 0 then some val
  else
    match unquoteLoop unsaf qs val { pct := [], lastPct := [], pcts := [], ret := [] } with
    | some s => some (unquoteFinish unsaf qs s).flatten
    | none => none

/-- The loop of `_do_unquote` followed by its final flush, starting from an
arbitrary state (used to reason about the loop by induction). -/
def unquoteRunFrom (unsaf : List Nat) (qs : Bool) (l : List Nat) (s : UState) :
    Option (List Nat) :=
  (unquoteLoop unsaf qs l s).map (fun s2 => (unquoteFinish unsaf qs s2).flatten)

/-- The character-wise encoding performed by `_do_quote` on a `%`-free ASCII
string under the default profile: safe characters verbatim, others as their
`%HH` escape. -/
def encQ (u : List Nat) : List Nat :=
  u.flatMap (fun c => if effSafe false [] [] c = true then [c] else pctChunk c)

/-! ## Spec-side descriptions used for comparison -/

/-- The spec's description of the `qs = true` base table: ASCII letters,
digits, `-._~`, and `!$'()*,`. -/
def specQsBaseTable (c : Nat) : Bool :=
  isAsciiLetter c || isAsciiDigit c || unreservedExtra.contains c || subDelimsWithoutQs.contains c

/-- The claim's description of the `qs = false` base table: the
`specQsBaseTable` characters plus the five characters `+?=;&`. -/
def claimedNotQsTable (c : Nat) : Bool :=
  specQsBaseTable c || [43, 63, 61, 59, 38].contains c

/-- The amended description of the `qs = false` base table: the
`specQsBaseTable` characters plus the four `QS` characters `+&=;` (no `?`). -/
def amendedNotQsTable (c : Nat) : Bool :=
  specQsBaseTable c || qsChars.contains c

/-- Uppercasing of a lowercase ASCII letter (hex-digit case normalization). -/
def upChar (c : Nat) : Nat :=
  if 97 ≤ c ∧ c ≤ 122 then c - 32 else c

/-- Case-normalization of the two characters after each `%` ("modulo
case-normalization of hex digits in percent escapes"). -/
def pctUpper : List Nat → List Nat
  | [] => []
  | c :: rest =>
    if c = 37 then
      match rest with
      | a :: b :: rest2 => 37 :: upChar a :: upChar b :: pctUpper rest2
      | [a] => [c, a]
      | [] => [c]
    else c :: pctUpper rest

/-- Canonical form for the quoter with a given profile: a sequence of
effective-safe ASCII characters other than `%` (and other than space when
`qs`), and uppercase `%HH` triplets whose byte is neither protected nor
effective-safe.  Such inputs drive `_do_quote` along the paths that never
allocate an output string. -/
def canonicalForm (safe prot : List Nat) (qs : Bool) : List Nat → Bool
  | [] => true
  | c :: rest =>
    if c = 37 then
      match rest with
      | c1 :: c2 :: rest2 =>
        match fromHex c1, fromHex c2 with
        | some d1, some d2 =>
          (c1 == toHex d1) && (c2 == toHex d2)
            && !(prot.contains (16 * d1 + d2))
            && !(decide (16 * d1 + d2 < 128) && effSafe qs safe prot (16 * d1 + d2))
            && canonicalForm safe prot qs rest2
        | _, _ => false
      | _ => false
    else
      decide (c < 128) && effSafe qs safe prot c && !(qs && c == 32)
        && canonicalForm safe prot qs rest

/-- Round-trip form for the default profiles: a sequence of effective-safe
ASCII characters other than `%`, and `%HH` triplets (either digit case) whose
byte is ASCII, not effective-safe, and not `%` itself. -/
def rtForm : List Nat → Bool
  | [] => true
  | c :: rest =>
    if c = 37 then
      match rest with
      | c1 :: c2 :: rest2 =>
        match fromHex c1, fromHex c2 with
        | some d1, some d2 =>
          decide (16 * d1 + d2 < 128) && !(effSafe false [] [] (16 * d1 + d2))
            && !(16 * d1 + d2 == 37) && rtForm rest2
        | _, _ => false
      | _ => false
    else
      decide (c < 128) && effSafe false [] [] c && !(c == 37) && rtForm rest

/-- The decoded code points of a string in `rtForm`: literal characters stay,
`%HH` triplets become their byte. -/
def rtDecode : List Nat → List Nat
  | [] => []
  | c :: rest =>
    if c = 37 then
      match rest with
      | c1 :: c2 :: rest2 =>
        match fromHex c1, fromHex c2 with
        | some d1, some d2 => (16 * d1 + d2) :: rtDecode rest2
        | _, _ => rtDecode rest2
      | _ => []
    else c :: rtDecode rest

/-! ## Helper lemmas -/

/-- A hex digit value is below 16. -/
theorem fromHex_lt {c d : Nat} (h : fromHex c = some d) : d < 16 := by
  unfold fromHex at h
  split_ifs at h <;> simp_all <;> omega

/-- The high nibble of `16 * d1 + d2` is `d1` when `d2 < 16`. -/
theorem hexByte_div {d1 d2 : Nat} (h : d2 < 16) : (16 * d1 + d2) / 16 = d1 := by
  omega

/-- The low nibble of `16 * d1 + d2` is `d2` when `d2 < 16`. -/
theorem hexByte_mod {d1 d2 : Nat} (h : d2 < 16) : (16 * d1 + d2) % 16 = d2 := by
  omega

/-! ## Claim C2: unquoter and trailing partial percent sequences -/

/-- Claim C2, evaluated on the failing inputs: the unquoter DROPS a trailing
partial percent sequence instead of preserving it.  `"%"` unquotes to `""`
and `"a%4"` unquotes to `"a"`. -/
theorem unquote_drops_trailing_partial :
    doUnquote [] false [37] = some [] ∧ doUnquote [] false [97, 37, 52] = some [97] := by
  constructor <;> rfl

/-! ## Claim C3: unquoter and undecodable percent runs -/

/-- Claim C3, evaluated on the failing input: on a run of `%HH` bytes that is
not valid UTF-8, only the LAST triplet is appended; `"%e2%82%f8"` unquotes to
`"%f8"`, dropping `%e2%82`. -/
theorem unquote_drops_undecodable_run :
    doUnquote [] false [37, 101, 50, 37, 56, 50, 37, 102, 56] = some [37, 102, 56] := by
  rfl

/-! ## Claim C10: the two quoter implementations differ -/

/-- Claim C10, evaluated on the failing input `"%FF "`: the function-based
`_do_quote` returns `"%20"` (the canonical `%FF` triplet taken by the fast
path is lost because `ret_idx` is not advanced), while the writer-based
`_Quoter` returns `"%FF%20"`. -/
theorem quoter_implementations_differ :
    doQuote [37, 70, 70, 32] [] [] false = .ok [37, 50, 48]
    ∧ quoterDoQuote [] [] false [37, 70, 70, 32] = [37, 70, 70, 37, 50, 48]
    ∧ ([37, 50, 48] : List Nat) ≠ [37, 70, 70, 37, 50, 48] := by
  refine ⟨by rfl, by rfl, by decide⟩

/-! ## Claim C1: quoter idempotence -/

/-- Claim C1 counterexample: quoting twice differs from quoting once, both for
a `qs` profile (space becomes `+`, which requotes to `%2B`) and for the
default profile (input `"%FFa "`, where the fast path loses characters and
leaves a bare `%` that is escaped on the second pass). -/
theorem quote_not_idempotent :
    (doQuote [32] [] [] true).bind (fun r => doQuote r [] [] true) ≠ doQuote [32] [] [] true
    ∧ (doQuote [37, 70, 70, 97, 32] [] [] false).bind (fun r => doQuote r [] [] false)
      ≠ doQuote [37, 70, 70, 97, 32] [] [] false := by
  decide

/-! ## Claim C4: codec-table contents -/

/-- Claim C4 counterexample: the claim includes `?` (code point 63) in the
`qs = false` base table, but the table built from `ALLOWED + QS` rejects it
(so a literal `?` is percent-encoded). -/
theorem notqs_table_rejects_question_mark :
    claimedNotQsTable 63 = true ∧ allowedNotQsTable 63 = false
    ∧ doQuote [63] [] [] false = .ok [37, 51, 70] := by
  decide

/-- Claim C4 (amended): the `qs = true` base table accepts exactly ASCII
letters, digits, `-._~` and `!$'()*,`; the `qs = false` base table accepts
exactly those plus the four characters `+&=;` — `?` is in neither. -/
theorem codec_tables_characterization :
    ∀ c : Fin 128, allowedTable c.val = specQsBaseTable c.val
      ∧ allowedNotQsTable c.val = amendedNotQsTable c.val := by
  decide

/-! ## Claim C7: quoter error conditions -/

/-- Claim C7 counterexample: an empty string input with a non-ASCII `safe`
character returns normally (the `val_len == 0` shortcut precedes the
validation loops), so "InvalidArgument iff non-ASCII in safe/protected"
fails. -/
theorem quote_no_error_on_empty_input :
    (127 : Nat) < 1103 ∧ pyQuote (PyVal.str []) [1103] [] false = .ok (some []) := by
  decide

/-- The error behaviour of `doQuote`: it fails exactly with `ValueError`, and
exactly when the input is non-empty and `safe` or `protected` contains a
character above 127. -/
theorem doQuote_error_iff (s safe prot : List Nat) (qs : Bool) (e : PyErr) :
    doQuote s safe prot qs = .error e
      ↔ e = .valueError ∧ s ≠ []
        ∧ (safe.any (fun c => 127 < c) = true ∨ prot.any (fun c => 127 < c) = true) := by
  unfold doQuote
  split_ifs with h1 h2 h3
  · simp only [List.length_eq_zero] at h1
    subst h1
    simp
  · have hs : s ≠ [] := by simpa [List.length_eq_zero] using h1
    simp only [hs, h2, Except.error.injEq, ne_eq, not_false_eq_true, true_and, true_or, and_true]
    exact ⟨fun h => h.symm, fun h => h.symm⟩
  · have hs : s ≠ [] := by simpa [List.length_eq_zero] using h1
    simp only [hs, h3, Except.error.injEq, ne_eq, not_false_eq_true, true_and, or_true, and_true]
    exact ⟨fun h => h.symm, fun h => h.symm⟩
  · simp [h2, h3]

/-- Claim C7 (amended): `_quote` raises `TypeError` exactly on inputs that are
neither `None` nor strings, and `ValueError` exactly when the input is a
non-empty string and `safe` or `protected` contains a character above 127
(`None` returns `None`; an empty string skips the validation). -/
theorem pyQuote_error_characterization (v : PyVal) (safe prot : List Nat) (qs : Bool) :
    (pyQuote v safe prot qs = .error .typeError ↔ v = PyVal.other)
    ∧ (pyQuote v safe prot qs = .error .valueError
        ↔ (∃ s, (v = PyVal.str s ∨ v = PyVal.strSub s) ∧ s ≠ [])
          ∧ (safe.any (fun c => 127 < c) = true ∨ prot.any (fun c => 127 < c) = true)) := by
  have hmap : ∀ (x : Except PyErr (List Nat)) (e : PyErr),
      (x.map Option.some = .error e) ↔ x = .error e := by
    intro x e; cases x <;> simp [Except.map]
  cases v with
  | none => simp [pyQuote]
  | str s => simp [pyQuote, hmap, doQuote_error_iff]
  | strSub s => simp [pyQuote, hmap, doQuote_error_iff]
  | other => simp [pyQuote]

/-! ## Claim C6: protected bytes stay percent-encoded -/

/-- Claim C6: in every machine state and input context, a valid `%HH` triplet
whose decoded byte (below 128) is in the `protected` set is re-emitted by the
function-based quoter as the canonical uppercase `%HH` escape — three
characters `%`, `toHex d1`, `toHex d2` with the digits in `0-9A-F` — and
never as the one-character literal. -/
theorem protected_triplet_reemitted
    (val safe prot : List Nat) (qs : Bool) (c1 c2 d1 d2 : Nat) (rest : List Nat)
    (s : QState) (fuel : Nat)
    (h1 : fromHex c1 = some d1) (h2 : fromHex c2 = some d2)
    (hp : prot.contains (16 * d1 + d2) = true) (hb : 16 * d1 + d2 < 128) :
    doQuoteLoop val safe prot qs (fuel + 1) (37 :: c1 :: c2 :: rest) s
      = doQuoteLoop val safe prot qs fuel rest
          (qWriteList (qForce val (val.length - rest.length) s) (pctChunk (16 * d1 + d2)))
    ∧ pctChunk (16 * d1 + d2) = [37, toHex d1, toHex d2]
    ∧ (48 ≤ toHex d1 ∧ toHex d1 ≤ 57 ∨ 65 ≤ toHex d1 ∧ toHex d1 ≤ 70)
    ∧ (48 ≤ toHex d2 ∧ toHex d2 ≤ 57 ∨ 65 ≤ toHex d2 ∧ toHex d2 ≤ 70)
    ∧ pctChunk (16 * d1 + d2) ≠ [16 * d1 + d2] := by
  have e1 : d1 < 16 := fromHex_lt h1
  have e2 : d2 < 16 := fromHex_lt h2
  have hp1 : (16 * d1 + d2) ∈ prot := by simpa using hp
  refine ⟨?_, ?_, ?_, ?_, ?_⟩
  · simp [doQuoteLoop, h1, h2, tripletEmit, hp1]
  · simp [pctChunk, hexByte_div e2, hexByte_mod e2]
  · unfold toHex; split_ifs <;> omega
  · unfold toHex; split_ifs <;> omega
  · simp [pctChunk]

/-- Witness for `protected_triplet_reemitted` at the concrete triplet `%41`
with `protected = "A"`. -/
theorem protected_triplet_reemitted_witness :
    fromHex 52 = some 4 ∧ fromHex 49 = some 1
    ∧ ([65] : List Nat).contains (16 * 4 + 1) = true ∧ 16 * 4 + 1 < 128
    ∧ pctChunk (16 * 4 + 1) ≠ [16 * 4 + 1] :=
  ⟨by decide, by decide, by decide, by decide,
    (protected_triplet_reemitted [37, 52, 49] [] [65] false 52 49 4 1 []
      { ret := none, retIdx := 0 } 0 (by decide) (by decide) (by decide) (by decide)).2.2.2.2⟩

/-! ## Claim C9: protected characters appearing raw -/

/-- Claim C9 counterexample: a raw protected `%` is not emitted verbatim — it
is treated as the start of a percent sequence and escaped to `%25`. -/
theorem protected_raw_percent_not_verbatim :
    doQuote [37] [] [37] false = .ok [37, 50, 53] ∧ ([37, 50, 53] : List Nat) ≠ [37] := by
  decide

/-- Claim C9 (amended): a protected character other than `%` (and other than
space under `qs`) that is read in the quoter's normal state is emitted
verbatim through the safe-character branch: configuring a character as
protected also sets it in the safe table. -/
theorem protected_raw_char_verbatim
    (val safe prot : List Nat) (qs : Bool) (c : Nat) (rest : List Nat) (s : QState) (fuel : Nat)
    (hc : prot.contains c = true) (h37 : c ≠ 37) (hlt : c < 128)
    (hsp : ¬(qs = true ∧ c = 32)) :
    effSafe qs safe prot c = true
    ∧ doQuoteLoop val safe prot qs (fuel + 1) (c :: rest) s
        = doQuoteLoop val safe prot qs fuel rest (qWrite s c) := by
  have hc1 : c ∈ prot := by simpa using hc
  have hs : effSafe qs safe prot c = true := by simp [effSafe, hc1]
  refine ⟨hs, ?_⟩
  simp [doQuoteLoop, h37, normStep, hsp, hlt, hs]

/-- Witness for `protected_raw_char_verbatim` at the concrete character `A`
with `protected = "A"`. -/
theorem protected_raw_char_verbatim_witness :
    ([65] : List Nat).contains 65 = true ∧ (65 : Nat) ≠ 37 ∧ (65 : Nat) < 128
    ∧ ¬(false = true ∧ (65 : Nat) = 32)
    ∧ effSafe false [] [65] 65 = true :=
  ⟨by decide, by decide, by decide, by decide,
    (protected_raw_char_verbatim [65] [] [65] false 65 [] { ret := none, retIdx := 0 } 0
      (by decide) (by decide) (by decide) (by decide)).1⟩

/-! ## Claim C8: unquoter re-encoding of unsafe characters -/

/-- Flattening singleton chunks gives back the list. -/
theorem flatten_map_singleton (l : List Nat) :
    (l.map (fun d => [d])).flatten = l := by
  induction l with
  | nil => simp
  | cons a t ih => simp [ih]

/-- Claim C8 counterexample: an unsafe character below 16 is emitted with a
single hex digit, not two: unquoting `"\n"` with `unsafe = "\n"` gives `"%A"`,
not `"%0A"`. -/
theorem unsafe_low_char_single_digit :
    doUnquote [10] false [10] = some [37, 65] ∧ ([37, 65] : List Nat) ≠ [37, 48, 65] := by
  decide

/-- Claim C8 (amended): outside percent runs, a character of the `unsafe` set
(other than `%` and `+`) is emitted as `%` followed by the uppercase hex
digits of its code point without zero padding (`hex(ord(ch)).upper()[2:]`) —
a single digit for code points below 16, two digits for 16..255. -/
theorem unsafe_char_reencoded
    (unsaf : List Nat) (qs : Bool) (c : Nat) (rest : List Nat) (s : UState)
    (hpct : s.pct = []) (hpcts : s.pcts = [])
    (hc : unsaf.contains c = true) (h37 : c ≠ 37) (h43 : c ≠ 43) :
    unquoteLoop unsaf qs (c :: rest) s
      = unquoteLoop unsaf qs rest
          { s with ret := s.ret ++ [[37]] ++ (upperHexStr c).map (fun d => [d]) }
    ∧ ([[37]] ++ (upperHexStr c).map (fun d => [d])).flatten = 37 :: upperHexStr c := by
  have hc1 : c ∈ unsaf := by simpa using hc
  constructor
  · simp [unquoteLoop, unquoteC, hpct, hpcts, h37, h43, hc1]
  · simp [flatten_map_singleton]

/-- Witness for `unsafe_char_reencoded` at the concrete character `\n`. -/
theorem unsafe_char_reencoded_witness :
    ([] : List Nat) = [] ∧ ([10] : List Nat).contains 10 = true
    ∧ (10 : Nat) ≠ 37 ∧ (10 : Nat) ≠ 43
    ∧ ([[37]] ++ (upperHexStr 10).map (fun d => [d])).flatten = 37 :: upperHexStr 10 :=
  ⟨rfl, by decide, by decide, by decide,
    (unsafe_char_reencoded [10] false 10 [] { pct := [], lastPct := [], pcts := [], ret := [] }
      rfl rfl (by decide) (by decide) (by decide)).2⟩

/-! ## Claim C1 (amended): canonical inputs pass through unchanged -/

/-- On input in `canonicalForm`, the quoter loop never allocates an output
string: safe characters only advance `ret_idx`, and canonical non-safe
triplets take the fast path. -/
theorem canonLoop_ret_none (val safe prot : List Nat) (qs : Bool) :
    ∀ (fuel : Nat) (l : List Nat), canonicalForm safe prot qs l = true →
      ∀ n, (doQuoteLoop val safe prot qs fuel l { ret := none, retIdx := n }).ret = none := by
  intro fuel
  induction fuel with
  | zero =>
    intro l hl n
    cases l <;> simp [doQuoteLoop]
  | succ fuel ih =>
    intro l hl n
    cases l with
    | nil => simp [doQuoteLoop]
    | cons c rest =>
      by_cases h37 : c = 37
      · subst h37
        cases rest with
        | nil => simp [canonicalForm] at hl
        | cons c1 rest1 =>
          cases rest1 with
          | nil => simp [canonicalForm] at hl
          | cons c2 rest2 =>
            cases hfc1 : fromHex c1 with
            | none => simp [canonicalForm, hfc1] at hl
            | some d1 =>
              cases hfc2 : fromHex c2 with
              | none => simp [canonicalForm, hfc1, hfc2] at hl
              | some d2 =>
                simp [canonicalForm, hfc1, hfc2] at hl
                obtain ⟨⟨⟨⟨hc1, hc2⟩, hb1⟩, hb2⟩, hrest⟩ := hl
                have e2 : d2 < 16 := fromHex_lt hfc2
                have hb1' : prot.contains (16 * d1 + d2) = false := by simpa using hb1
                have hb2' : ¬(16 * d1 + d2 < 128 ∧ effSafe qs safe prot (16 * d1 + d2) = true) := by
                  rintro ⟨hx1, hx2⟩
                  rcases hb2 with h | h
                  · omega
                  · rw [hx2] at h
                    cases h
                have hred : doQuoteLoop val safe prot qs (fuel + 1) (37 :: c1 :: c2 :: rest2)
                    { ret := none, retIdx := n }
                    = doQuoteLoop val safe prot qs fuel rest2 { ret := none, retIdx := n } := by
                  simp only [doQuoteLoop, hfc1, hfc2, if_true]
                  rw [tripletEmit, if_neg (by simpa using hb1), if_neg hb2']
                  rw [hexByte_div e2, hexByte_mod e2, if_pos ⟨hc1, hc2⟩]
                rw [hred]
                exact ih rest2 hrest n
      · rw [canonicalForm.eq_def] at hl
        simp [h37] at hl
        obtain ⟨⟨⟨hlt, hsf⟩, hq⟩, hrest⟩ := hl
        have hnqs' : ¬(qs = true ∧ c = 32) := by
          rintro ⟨hx1, hx2⟩
          rcases hq with h | h
          · rw [hx1] at h
            cases h
          · exact h hx2
        have hw : normStep val safe prot qs c (val.length - rest.length)
            { ret := none, retIdx := n } = { ret := none, retIdx := n + 1 } := by
          unfold normStep
          rw [if_neg hnqs', if_pos ⟨hlt, hsf⟩]
          rfl
        have hred : doQuoteLoop val safe prot qs (fuel + 1) (c :: rest)
            { ret := none, retIdx := n }
            = doQuoteLoop val safe prot qs fuel rest { ret := none, retIdx := n + 1 } := by
          rw [doQuoteLoop.eq_def]
          simp [h37, hw]
        rw [hred]
        exact ih rest hrest (n + 1)

/-- Claim C1 (amended): general idempotence fails (see
`quote_not_idempotent`), but an input already in canonical form for the
profile — effective-safe ASCII characters other than `%` (and other than
space under `qs`), and uppercase `%HH` triplets of bytes that are neither
protected nor safe — passes through `_do_quote` unchanged, and on such inputs
quoting twice equals quoting once. -/
theorem quote_canonical_passthrough (val safe prot : List Nat) (qs : Bool)
    (hcanon : canonicalForm safe prot qs val = true)
    (hsafe : safe.any (fun c => 127 < c) = false)
    (hprot : prot.any (fun c => 127 < c) = false) :
    doQuote val safe prot qs = .ok val
    ∧ (doQuote val safe prot qs).bind (fun r => doQuote r safe prot qs)
      = doQuote val safe prot qs := by
  have hrun : doQuoteRun val safe prot qs = val := by
    have hret := canonLoop_ret_none val safe prot qs val.length val hcanon 0
    simp [doQuoteRun, hret]
  have h1 : doQuote val safe prot qs = .ok val := by
    unfold doQuote
    by_cases hv : val.length = 0
    · rw [if_pos hv]
    · rw [if_neg hv, if_neg (by simp [hsafe]), if_neg (by simp [hprot]), hrun]
  refine ⟨h1, ?_⟩
  rw [h1]
  simpa [Except.bind] using h1

/-- Witness for `quote_canonical_passthrough` at the concrete canonical input
`"a%FF"` with the default profile. -/
theorem quote_canonical_passthrough_witness :
    canonicalForm [] [] false [97, 37, 70, 70] = true
    ∧ doQuote [97, 37, 70, 70] [] [] false = .ok [97, 37, 70, 70] :=
  ⟨by decide,
    (quote_canonical_passthrough [97, 37, 70, 70] [] [] false (by decide) rfl rfl).1⟩

/-! ## Claim C5: quote/unquote round-trip on the default profiles -/

/-- A single ASCII byte always UTF-8 decodes to itself. -/
theorem utf8Decode_single (b : Nat) (hb : b < 128) : utf8Decode [b] = some [b] := by
  show (if b < 0x80 then (utf8Decode []).map (b :: ·)
    else if b < 0xC2 then none
    else if b ≤ 0xDF then none
    else if b ≤ 0xEF then none
    else if b ≤ 0xF4 then none
    else none : Option (List Nat)) = some [b]
  rw [if_pos hb]
  rfl

/-- With empty `unsafe` and `qs = false` a decoded run is appended as-is. -/
theorem requote_single (u : List Nat) : requoteChunk [] false u = u := by
  cases u with
  | nil => rfl
  | cons a t => simp [requoteChunk, segIn, leadMatch]

/-- `unquoteC` on a normal character from a clean state appends one chunk. -/
theorem unquoteC_clean (c : Nat) (s : UState) (hpct : s.pct = []) (hpcts : s.pcts = [])
    (h37 : c ≠ 37) :
    unquoteC [] false c s = some { s with ret := s.ret ++ [[c]] } := by
  by_cases h43 : c = 43
  · subst h43; simp [unquoteC, hpct, hpcts]
  · simp [unquoteC, hpct, hpcts, h37, h43]

/-- `unquoteC` on `%` from a clean state starts a percent sequence. -/
theorem unquoteC_pctStart (s : UState) (hpct : s.pct = []) (hpcts : s.pcts = []) :
    unquoteC [] false 37 s = some { s with pct := [37] } := by
  simp [unquoteC, hpct, hpcts]

/-- `unquoteC` on the first hex digit. -/
theorem unquoteC_pct1 (c : Nat) (s : UState) (hpct : s.pct = [37]) :
    unquoteC [] false c s = some { s with pct := [37, c] } := by
  simp [unquoteC, hpct]

/-- `unquoteC` on the second hex digit completes the triplet. -/
theorem unquoteC_pct2 (c1 c2 d1 d2 : Nat) (s : UState) (hpct : s.pct = [37, c1])
    (h1 : fromHex c1 = some d1) (h2 : fromHex c2 = some d2) :
    unquoteC [] false c2 s
      = some { s with pct := [], lastPct := [37, c1, c2],
                      pcts := s.pcts ++ [16 * d1 + d2] } := by
  unfold unquoteC
  rw [hpct]
  simp only [h1, h2]
  rfl

/-- One step of `unquoteRunFrom` along a known transition. -/
theorem unquoteRunFrom_cons_some (unsaf : List Nat) (qs : Bool) (c : Nat) (l : List Nat)
    (s s1 : UState) (h : unquoteC unsaf qs c s = some s1) :
    unquoteRunFrom unsaf qs (c :: l) s = unquoteRunFrom unsaf qs l s1 := by
  simp [unquoteRunFrom, unquoteLoop, h]

/-- Processing a character with one decodable ASCII byte pending equals first
flushing that byte to the output and then processing the character. -/
theorem pending_flush (c b : Nat) (s : UState) (hpct : s.pct = []) (hpcts : s.pcts = [b])
    (hb : b < 128) :
    unquoteC [] false c s
      = unquoteC [] false c { s with ret := s.ret ++ [[b]], pcts := [] } := by
  simp [unquoteC, hpct, hpcts, utf8Decode_single b hb, requote_single]

/-- The same, lifted to the rest of the run. -/
theorem pending_run (l : List Nat) (b : Nat) (s : UState) (hpct : s.pct = [])
    (hpcts : s.pcts = [b]) (hb : b < 128) :
    unquoteRunFrom [] false l s
      = unquoteRunFrom [] false l { s with ret := s.ret ++ [[b]], pcts := [] } := by
  cases l with
  | nil =>
    simp [unquoteRunFrom, unquoteLoop, unquoteFinish, hpcts,
      utf8Decode_single b hb, requote_single]
  | cons c rest =>
    have h := pending_flush c b s hpct hpcts hb
    cases hcs : unquoteC [] false c { s with ret := s.ret ++ [[b]], pcts := [] } with
    | none =>
      simp [unquoteRunFrom, unquoteLoop, hcs, h.trans hcs]
    | some s1 =>
      rw [unquoteRunFrom_cons_some [] false c rest _ s1 (h.trans hcs),
        unquoteRunFrom_cons_some [] false c rest _ s1 hcs]

/-- Unquoting a string in `rtForm` from a clean state decodes it
token-by-token. -/
theorem rt_unquote :
    ∀ (fuel : Nat) (l : List Nat), rtForm l = true → l.length ≤ fuel →
    ∀ s : UState, s.pct = [] → s.pcts = [] →
      unquoteRunFrom [] false l s = some (s.ret.flatten ++ rtDecode l) := by
  intro fuel
  induction fuel with
  | zero =>
    intro l hl hlen s hpct hpcts
    obtain rfl := List.length_eq_zero.mp (Nat.le_zero.mp hlen)
    simp [unquoteRunFrom, unquoteLoop, unquoteFinish, hpcts, rtDecode]
  | succ fuel ih =>
    intro l hl hlen s hpct hpcts
    cases l with
    | nil => simp [unquoteRunFrom, unquoteLoop, unquoteFinish, hpcts, rtDecode]
    | cons c rest =>
      by_cases h37 : c = 37
      · subst h37
        cases rest with
        | nil => simp [rtForm] at hl
        | cons c1 rest1 =>
          cases rest1 with
          | nil => simp [rtForm] at hl
          | cons c2 rest2 =>
            cases hfc1 : fromHex c1 with
            | none => simp [rtForm, hfc1] at hl
            | some d1 =>
              cases hfc2 : fromHex c2 with
              | none => simp [rtForm, hfc1, hfc2] at hl
              | some d2 =>
                simp [rtForm, hfc1, hfc2] at hl
                obtain ⟨⟨⟨hblt, hbsf⟩, hb37⟩, hrest⟩ := hl
                have hlen' : rest2.length ≤ fuel := by
                  simp at hlen
                  omega
                rw [unquoteRunFrom_cons_some [] false 37 _ s _ (unquoteC_pctStart s hpct hpcts)]
                rw [unquoteRunFrom_cons_some [] false c1 _ _ _ (unquoteC_pct1 c1 _ rfl)]
                rw [unquoteRunFrom_cons_some [] false c2 _ _ _
                  (unquoteC_pct2 c1 c2 d1 d2 _ rfl hfc1 hfc2)]
                rw [pending_run rest2 (16 * d1 + d2) _ rfl (by simp [hpcts]) hblt]
                rw [ih rest2 hrest hlen' _ rfl rfl]
                simp [rtDecode, hfc1, hfc2, hpcts]
      · rw [rtForm.eq_def] at hl
        simp [h37] at hl
        obtain ⟨⟨hlt, hsf⟩, hrest⟩ := hl
        have hlen' : rest.length ≤ fuel := by
          simp at hlen
          omega
        rw [unquoteRunFrom_cons_some [] false c _ s _ (unquoteC_clean c s hpct hpcts h37)]
        rw [ih rest hrest hlen' { s with ret := s.ret ++ [[c]] } hpct (by simp [hpcts])]
        conv_rhs => rw [rtDecode.eq_def]
        simp [h37]

/-! ### Quote side: `%`-free ASCII strings -/

/-- Writing at the end of the buffer appends. -/
theorem bufWrite_append (buf : List Nat) (c : Nat) :
    bufWrite buf buf.length c = buf ++ [c] := by
  simp [bufWrite]

/-- Overwriting the last element of `p ++ [c]`. -/
theorem set_len_append (p : List Nat) (c x : Nat) :
    (p ++ [c]).set p.length x = p ++ [x] := by
  induction p with
  | nil => rfl
  | cons a t iht => simp [iht]

/-- `qWrite` on a buffer-synchronised state appends. -/
theorem qWrite_inline (buf : List Nat) (c : Nat) :
    qWrite { ret := some buf, retIdx := buf.length } c
      = { ret := some (buf ++ [c]), retIdx := (buf ++ [c]).length } := by
  simp [qWrite, bufWrite_append]

/-- `qWriteList` on a buffer-synchronised state appends. -/
theorem qWriteList_inline (cs : List Nat) :
    ∀ buf : List Nat,
      qWriteList { ret := some buf, retIdx := buf.length } cs
        = { ret := some (buf ++ cs), retIdx := (buf ++ cs).length } := by
  induction cs with
  | nil => intro buf; simp [qWriteList]
  | cons c rest ih =>
    intro buf
    show qWriteList (qWrite { ret := some buf, retIdx := buf.length } c) rest = _
    rw [qWrite_inline, ih (buf ++ [c])]
    simp

/-- Three writes starting one position before the end of `p ++ [c]`: the first
overwrites `c`, the next two append. -/
theorem qWriteList_over (p : List Nat) (c x y z : Nat) :
    qWriteList { ret := some (p ++ [c]), retIdx := p.length } [x, y, z]
      = { ret := some (p ++ [x, y, z]), retIdx := (p ++ [x, y, z]).length } := by
  have h1 : qWrite { ret := some (p ++ [c]), retIdx := p.length } x
      = { ret := some (p ++ [x]), retIdx := (p ++ [x]).length } := by
    simp [qWrite, bufWrite, set_len_append]
  show qWriteList (qWrite { ret := some (p ++ [c]), retIdx := p.length } x) [y, z] = _
  rw [h1, qWriteList_inline [y, z] (p ++ [x])]
  simp

/-- The quoter loop from a buffer-synchronised allocated state encodes a
`%`-free ASCII suffix character-wise. -/
theorem quoteLoop_some (val : List Nat) :
    ∀ (fuel : Nat) (l : List Nat), (∀ c ∈ l, c < 128 ∧ c ≠ 37) → l.length ≤ fuel →
    ∀ buf : List Nat,
      doQuoteLoop val [] [] false fuel l { ret := some buf, retIdx := buf.length }
        = { ret := some (buf ++ encQ l), retIdx := (buf ++ encQ l).length } := by
  intro fuel
  induction fuel with
  | zero =>
    intro l hl hlen buf
    rw [List.length_eq_zero.mp (Nat.le_zero.mp hlen)]
    simp [doQuoteLoop, encQ]
  | succ fuel ih =>
    intro l hl hlen buf
    cases l with
    | nil => simp [doQuoteLoop, encQ]
    | cons c rest =>
      obtain ⟨hlt, h37⟩ := hl c (List.mem_cons_self c rest)
      have hrest : ∀ x ∈ rest, x < 128 ∧ x ≠ 37 :=
        fun x hx => hl x (List.mem_cons_of_mem c hx)
      have hlen' : rest.length ≤ fuel := by simp at hlen; omega
      have hred : doQuoteLoop val [] [] false (fuel + 1) (c :: rest)
          { ret := some buf, retIdx := buf.length }
          = doQuoteLoop val [] [] false fuel rest
              (normStep val [] [] false c (val.length - rest.length)
                { ret := some buf, retIdx := buf.length }) := by
        rw [doQuoteLoop.eq_def]
        simp [h37]
      rw [hred]
      by_cases hsf : effSafe false [] [] c = true
      · have hn : normStep val [] [] false c (val.length - rest.length)
            { ret := some buf, retIdx := buf.length }
            = { ret := some (buf ++ [c]), retIdx := (buf ++ [c]).length } := by
          unfold normStep
          rw [if_neg (by simp), if_pos ⟨hlt, hsf⟩, qWrite_inline]
        rw [hn, ih rest hrest hlen' (buf ++ [c])]
        simp [encQ, hsf]
      · have hn : normStep val [] [] false c (val.length - rest.length)
            { ret := some buf, retIdx := buf.length }
            = { ret := some (buf ++ pctChunk c), retIdx := (buf ++ pctChunk c).length } := by
          unfold normStep
          rw [if_neg (by simp), if_neg (by simp [hsf])]
          have : utf8PctChunk c = pctChunk c := by
            simp [utf8PctChunk, charAsUtf8, hlt]
          rw [this]
          show qWriteList { ret := some buf, retIdx := buf.length } (pctChunk c) = _
          rw [qWriteList_inline]
        rw [hn, ih rest hrest hlen' (buf ++ pctChunk c)]
        simp [encQ, hsf]

/-- The quoter loop from the unallocated initial state on a `%`-free ASCII
input: either nothing changes (and the encoding is the identity), or the
buffer holds the encoding of the whole input. -/
theorem quoteLoop_none (val : List Nat) :
    ∀ (fuel : Nat) (l : List Nat), (∀ c ∈ l, c < 128 ∧ c ≠ 37) → l.length ≤ fuel →
    ∀ p : List Nat, val = p ++ l →
      (doQuoteLoop val [] [] false fuel l { ret := none, retIdx := p.length }
          = { ret := none, retIdx := p.length + l.length } ∧ encQ l = l)
      ∨ doQuoteLoop val [] [] false fuel l { ret := none, retIdx := p.length }
          = { ret := some (p ++ encQ l), retIdx := (p ++ encQ l).length } := by
  intro fuel
  induction fuel with
  | zero =>
    intro l hl hlen p hval
    rw [List.length_eq_zero.mp (Nat.le_zero.mp hlen)]
    exact Or.inl ⟨by simp [doQuoteLoop], by simp [encQ]⟩
  | succ fuel ih =>
    intro l hl hlen p hval
    cases l with
    | nil => exact Or.inl ⟨by simp [doQuoteLoop], by simp [encQ]⟩
    | cons c rest =>
      obtain ⟨hlt, h37⟩ := hl c (List.mem_cons_self c rest)
      have hrest : ∀ x ∈ rest, x < 128 ∧ x ≠ 37 :=
        fun x hx => hl x (List.mem_cons_of_mem c hx)
      have hlen' : rest.length ≤ fuel := by simp at hlen; omega
      have hred : doQuoteLoop val [] [] false (fuel + 1) (c :: rest)
          { ret := none, retIdx := p.length }
          = doQuoteLoop val [] [] false fuel rest
              (normStep val [] [] false c (val.length - rest.length)
                { ret := none, retIdx := p.length }) := by
        rw [doQuoteLoop.eq_def]
        simp [h37]
      rw [hred]
      by_cases hsf : effSafe false [] [] c = true
      · have hn : normStep val [] [] false c (val.length - rest.length)
            { ret := none, retIdx := p.length }
            = { ret := none, retIdx := (p ++ [c]).length } := by
          unfold normStep
          rw [if_neg (by simp), if_pos ⟨hlt, hsf⟩]
          simp [qWrite]
        rw [hn]
        rcases ih rest hrest hlen' (p ++ [c]) (by simp [hval]) with ⟨ha, hb⟩ | ha
        · refine Or.inl ⟨?_, ?_⟩
          · rw [ha]
            simp
            omega
          · simp [encQ, hsf, hb]
            simpa [encQ] using hb
        · refine Or.inr ?_
          rw [ha]
          simp [encQ, hsf]
      · have hidx : val.length - rest.length = p.length + 1 := by
          rw [hval]
          simp
          omega
        have htake : val.take (p.length + 1) = p ++ [c] := by
          rw [hval]
          rw [List.take_append_eq_append_take]
          simp
        have hn : normStep val [] [] false c (val.length - rest.length)
            { ret := none, retIdx := p.length }
            = { ret := some (p ++ pctChunk c), retIdx := (p ++ pctChunk c).length } := by
          unfold normStep
          rw [if_neg (by simp), if_neg (by simp [hsf])]
          have hu : utf8PctChunk c = pctChunk c := by
            simp [utf8PctChunk, charAsUtf8, hlt]
          rw [hu, hidx]
          show qWriteList (qForce val (p.length + 1) { ret := none, retIdx := p.length })
              (pctChunk c) = _
          rw [qForce, htake]
          show qWriteList { ret := some (p ++ [c]), retIdx := p.length }
              [37, toHex (c / 16), toHex (c % 16)] = _
          rw [qWriteList_over]
          rfl
        rw [hn, quoteLoop_some val fuel rest hrest hlen' (p ++ pctChunk c)]
        refine Or.inr ?_
        simp [encQ, hsf]

/-- `_do_quote` on a `%`-free ASCII string with the default profile encodes
it character-wise. -/
theorem quoteRun_ascii (u : List Nat) (hu : ∀ c ∈ u, c < 128 ∧ c ≠ 37) :
    doQuoteRun u [] [] false = encQ u := by
  unfold doQuoteRun
  rcases quoteLoop_none u u.length u hu le_rfl [] rfl with ⟨h1, h2⟩ | h1 <;>
    simp only [List.length_nil, List.nil_append] at h1
  · simp only [h1]
    exact h2.symm
  · simp only [h1]
    simp [List.take_length]

/-! ### Glue: decoded strings are `%`-free ASCII, and re-encoding uppercases -/

/-- The decoded code points of an `rtForm` string are ASCII and not `%`. -/
theorem rtDecode_chars :
    ∀ (fuel : Nat) (l : List Nat), rtForm l = true → l.length ≤ fuel →
      ∀ c ∈ rtDecode l, c < 128 ∧ c ≠ 37 := by
  intro fuel
  induction fuel with
  | zero =>
    intro l hl hlen
    rw [List.length_eq_zero.mp (Nat.le_zero.mp hlen)]
    simp [rtDecode]
  | succ fuel ih =>
    intro l hl hlen
    cases l with
    | nil => simp [rtDecode]
    | cons c rest =>
      by_cases h37 : c = 37
      · subst h37
        cases rest with
        | nil => simp [rtForm] at hl
        | cons c1 rest1 =>
          cases rest1 with
          | nil => simp [rtForm] at hl
          | cons c2 rest2 =>
            cases hfc1 : fromHex c1 with
            | none => simp [rtForm, hfc1] at hl
            | some d1 =>
              cases hfc2 : fromHex c2 with
              | none => simp [rtForm, hfc1, hfc2] at hl
              | some d2 =>
                simp [rtForm, hfc1, hfc2] at hl
                obtain ⟨⟨⟨hblt, hbsf⟩, hb37⟩, hrest⟩ := hl
                rw [rtDecode.eq_def]
                simp only [hfc1, hfc2, if_true]
                intro x hx
                rcases List.mem_cons.mp hx with hx | hx
                · subst hx; exact ⟨hblt, hb37⟩
                · exact ih rest2 hrest (by simp at hlen; omega) x hx
      · rw [rtForm.eq_def] at hl
        simp [h37] at hl
        obtain ⟨⟨hlt, hsf⟩, hrest⟩ := hl
        rw [rtDecode.eq_def]
        simp only [h37, if_neg h37]
        intro x hx
        rcases List.mem_cons.mp hx with hx | hx
        · subst hx; exact ⟨hlt, h37⟩
        · exact ih rest hrest (by simp at hlen; omega) x hx

/-- The uppercase canonical digit of a hex digit character. -/
theorem toHex_upChar (c d : Nat) (h : fromHex c = some d) : toHex d = upChar c := by
  unfold fromHex at h
  split_ifs at h with h1 h2 h3 <;>
    simp only [Option.some.injEq] at h <;>
    (try subst h) <;>
    unfold toHex upChar <;>
    split_ifs <;>
    omega

/-- Re-encoding the decoded tokens of an `rtForm` string gives the
case-normalized original. -/
theorem encQ_rtDecode :
    ∀ (fuel : Nat) (l : List Nat), rtForm l = true → l.length ≤ fuel →
      encQ (rtDecode l) = pctUpper l := by
  intro fuel
  induction fuel with
  | zero =>
    intro l hl hlen
    rw [List.length_eq_zero.mp (Nat.le_zero.mp hlen)]
    simp [rtDecode, encQ, pctUpper]
  | succ fuel ih =>
    intro l hl hlen
    cases l with
    | nil => simp [rtDecode, encQ, pctUpper]
    | cons c rest =>
      by_cases h37 : c = 37
      · subst h37
        cases rest with
        | nil => simp [rtForm] at hl
        | cons c1 rest1 =>
          cases rest1 with
          | nil => simp [rtForm] at hl
          | cons c2 rest2 =>
            cases hfc1 : fromHex c1 with
            | none => simp [rtForm, hfc1] at hl
            | some d1 =>
              cases hfc2 : fromHex c2 with
              | none => simp [rtForm, hfc1, hfc2] at hl
              | some d2 =>
                simp [rtForm, hfc1, hfc2] at hl
                obtain ⟨⟨⟨hblt, hbsf⟩, hb37⟩, hrest⟩ := hl
                have e2 : d2 < 16 := fromHex_lt hfc2
                have hdec : rtDecode (37 :: c1 :: c2 :: rest2)
                    = (16 * d1 + d2) :: rtDecode rest2 := by
                  simp [rtDecode, hfc1, hfc2]
                have hup : pctUpper (37 :: c1 :: c2 :: rest2)
                    = 37 :: upChar c1 :: upChar c2 :: pctUpper rest2 := by
                  simp [pctUpper]
                have hchunk : encQ ((16 * d1 + d2) :: rtDecode rest2)
                    = pctChunk (16 * d1 + d2) ++ encQ (rtDecode rest2) := by
                  simp [encQ, hbsf]
                rw [hdec, hup, hchunk, ih rest2 hrest (by simp at hlen; omega)]
                simp [pctChunk, hexByte_div e2, hexByte_mod e2,
                  toHex_upChar c1 d1 hfc1, toHex_upChar c2 d2 hfc2]
      · rw [rtForm.eq_def] at hl
        simp [h37] at hl
        obtain ⟨⟨hlt, hsf⟩, hrest⟩ := hl
        have hdec : rtDecode (c :: rest) = c :: rtDecode rest := by
          rw [rtDecode.eq_def]
          simp [h37]
        have hup : pctUpper (c :: rest) = c :: pctUpper rest := by
          rw [pctUpper.eq_def]
          simp [h37]
        have hchunk : encQ (c :: rtDecode rest) = [c] ++ encQ (rtDecode rest) := by
          simp [encQ, hsf]
        rw [hdec, hup, hchunk, ih rest hrest (by simp at hlen; omega)]
        simp

/-- Claim C5 counterexample: for the valid percent-encoded string `"%41"`,
`quote(unquote("%41"))` is `"A"`, which does not equal `"%41"` even modulo
hex-digit case. -/
theorem unquote_quote_not_inverse :
    (doUnquote [] false [37, 52, 49]).map (fun u => doQuoteRun u [] [] false) = some [65]
    ∧ pctUpper [65] ≠ pctUpper [37, 52, 49] := by
  constructor
  · rfl
  · decide

/-- Claim C5 (amended): for every string in `rtForm` — literal safe ASCII
characters and `%HH` escapes (either digit case) of ASCII bytes that are
neither safe nor `%` — unquoting with the default profile and re-quoting with
the default profile returns the input with its hex digits uppercased. -/
theorem quote_unquote_roundtrip (s : List Nat) (h : rtForm s = true) :
    (doUnquote [] false s).map (fun u => doQuoteRun u [] [] false)
      = some (pctUpper s) := by
  by_cases hs : s = []
  · subst hs
    simp [doUnquote, doQuoteRun, doQuoteLoop, pctUpper]
  · have hbridge : doUnquote [] false s = unquoteRunFrom [] false s
        { pct := [], lastPct := [], pcts := [], ret := [] } := by
      unfold doUnquote unquoteRunFrom
      rw [if_neg (by simpa [List.length_eq_zero] using hs)]
      cases unquoteLoop [] false s { pct := [], lastPct := [], pcts := [], ret := [] } <;>
        simp
    rw [hbridge, rt_unquote s.length s h le_rfl _ rfl rfl]
    show some (doQuoteRun ([].flatten ++ rtDecode s) [] [] false) = some (pctUpper s)
    simp only [List.flatten_nil, List.nil_append]
    rw [quoteRun_ascii (rtDecode s) (rtDecode_chars s.length s h le_rfl),
      encQ_rtDecode s.length s h le_rfl]

/-- Witness for `quote_unquote_roundtrip` at the concrete input `"a%3c"`. -/
theorem quote_unquote_roundtrip_witness :
    rtForm [97, 37, 51, 99] = true
    ∧ (doUnquote [] false [97, 37, 51, 99]).map (fun u => doQuoteRun u [] [] false)
      = some (pctUpper [97, 37, 51, 99]) :=
  ⟨by decide, quote_unquote_roundtrip [97, 37, 51, 99] (by decide)⟩

end Yarl
